import Mathlib

/-!
Verification of the NMS core of `detections.py` (class `Detection`).

The data model and the suppression algorithm are embedded from
`src/detections.py`.  Coordinates and confidences are modelled as
rationals.  The IoU primitive (`Track._iou`, imported by the code from
the sibling `sort` module, which is not among the sources) is modelled
from the design document, §4.1 (BoxGeometry).
-/

namespace TrackingNMS

/-- An axis-aligned bounding box `(x1, y1, x2, y2)` in normalized
coordinates (`bbox: np.ndarray` in `xyxyn` format in `detections.py`). -/
structure Box where
  x1 : ℚ
  y1 : ℚ
  x2 : ℚ
  y2 : ℚ
deriving DecidableEq

/-- The `Detection` dataclass from `detections.py`. -/
structure Detection where
  bbox : Box
  class_id : ℤ
  class_name : String
  confidence : ℚ
deriving DecidableEq

/-- Area `(x2-x1)*(y2-y1)` of a box. -/
def boxArea (b : Box) : ℚ := (b.x2 - b.x1) * (b.y2 - b.y1)

/-- Intersection area of two boxes, clamped at zero in each dimension. -/
def interArea (A B : Box) : ℚ :=
  max 0 (min A.x2 B.x2 - max A.x1 B.x1) * max 0 (min A.y2 B.y2 - max A.y1 B.y1)

/-- Union area `areaA + areaB - intersection`. -/
def unionArea (A B : Box) : ℚ := boxArea A + boxArea B - interArea A B

/-- Modelled from the spec: the IoU primitive `Track._iou` lives in the
sibling `sort` module, which is not among the sources; §4.1 (BoxGeometry)
of the design document specifies the computation performed at the call
site in `Detection.nms`: intersection over union, defined as `0` when
the union is `0`. -/
def iou (A B : Box) : ℚ :=
  if unionArea A B = 0 then 0 else interArea A B / unionArea A B

/-- The keep-condition of the inner loop of `Detection.nms`: a detection
survives the comparison against `current` when its class differs, or when
its IoU with `current` is below the threshold. -/
def nmsKeep (t : ℚ) (current d : Detection) : Bool :=
  if d.class_name ≠ current.class_name then true
  else decide (iou current.bbox d.bbox < t)

/-- The `while detections:` loop of `Detection.nms`: pop the
highest-confidence detection, append it to the output, and keep from the
remainder only the detections passing `nmsKeep`. -/
def nmsLoop (t : ℚ) : List Detection → List Detection
  | [] => []
  | current :: rest => current :: nmsLoop t (rest.filter (nmsKeep t current))
termination_by l => l.length
decreasing_by
  simp only [List.length_cons]
  exact Nat.lt_succ_of_le (List.length_filter_le _ _)

/-- The comparison used by `sorted(detections, key=lambda x: x.confidence,
reverse=True)`: a stable sort placing higher confidence first. -/
def confGE (a b : Detection) : Bool := decide (b.confidence ≤ a.confidence)

/-- The sort in `Detection.nms`: stable, by descending confidence. -/
def sortByConfidence (l : List Detection) : List Detection :=
  l.mergeSort confGE

/-- `Detection.nms` from `detections.py`. -/
def nms (detections : List Detection) (iou_threshold : ℚ) : List Detection :=
  if detections.isEmpty then []
  else nmsLoop iou_threshold (sortByConfidence detections)

/-! ### Basic lemmas about the loop -/

theorem nmsLoop_nil (t : ℚ) : nmsLoop t [] = [] := by
  simp [nmsLoop]

theorem nmsLoop_cons (t : ℚ) (current : Detection) (rest : List Detection) :
    nmsLoop t (current :: rest) =
      current :: nmsLoop t (rest.filter (nmsKeep t current)) := by
  simp [nmsLoop]

/-- The output of the suppression loop is a sublist of its input. -/
theorem nmsLoop_sublist (t : ℚ) (l : List Detection) :
    List.Sublist (nmsLoop t l) l := by
  induction l using nmsLoop.induct t with
  | case1 => simp [nmsLoop_nil]
  | case2 current rest ih =>
    rw [nmsLoop_cons]
    exact (ih.trans (List.filter_sublist rest)).cons₂ current

/-! ### Geometry lemmas -/

theorem interArea_nonneg (A B : Box) : 0 ≤ interArea A B :=
  mul_nonneg (le_max_left 0 _) (le_max_left 0 _)

theorem unionArea_pos (A B : Box) (hp : 0 < interArea A B) : 0 < unionArea A B := by
  unfold interArea at hp
  have hw : 0 < min A.x2 B.x2 - max A.x1 B.x1 := by
    by_contra hc
    push_neg at hc
    rw [max_eq_left hc] at hp
    simp at hp
  have hv : 0 < min A.y2 B.y2 - max A.y1 B.y1 := by
    by_contra hc
    push_neg at hc
    rw [max_eq_left hc] at hp
    simp at hp
  have h1 : min A.x2 B.x2 ≤ A.x2 := min_le_left _ _
  have h2 : A.x1 ≤ max A.x1 B.x1 := le_max_left _ _
  have h3 : min A.x2 B.x2 ≤ B.x2 := min_le_right _ _
  have h4 : B.x1 ≤ max A.x1 B.x1 := le_max_right _ _
  have h5 : min A.y2 B.y2 ≤ A.y2 := min_le_left _ _
  have h6 : A.y1 ≤ max A.y1 B.y1 := le_max_left _ _
  have h7 : min A.y2 B.y2 ≤ B.y2 := min_le_right _ _
  have h8 : B.y1 ≤ max A.y1 B.y1 := le_max_right _ _
  have hiA : (min A.x2 B.x2 - max A.x1 B.x1) * (min A.y2 B.y2 - max A.y1 B.y1) ≤
      (A.x2 - A.x1) * (A.y2 - A.y1) :=
    mul_le_mul (by linarith) (by linarith) hv.le (by linarith)
  have hiB : (min A.x2 B.x2 - max A.x1 B.x1) * (min A.y2 B.y2 - max A.y1 B.y1) ≤
      (B.x2 - B.x1) * (B.y2 - B.y1) :=
    mul_le_mul (by linarith) (by linarith) hv.le (by linarith)
  have hpos := mul_pos hw hv
  have hiou : interArea A B =
      (min A.x2 B.x2 - max A.x1 B.x1) * (min A.y2 B.y2 - max A.y1 B.y1) := by
    rw [interArea, max_eq_right hw.le, max_eq_right hv.le]
  unfold unionArea boxArea
  rw [hiou]
  linarith

theorem iou_nonneg (A B : Box) : 0 ≤ iou A B := by
  rw [iou]
  split
  · exact le_refl 0
  · rcases (interArea_nonneg A B).eq_or_lt with h | h
    · rw [← h, zero_div]
    · exact (div_pos h (unionArea_pos A B h)).le

theorem interArea_comm (A B : Box) : interArea A B = interArea B A := by
  unfold interArea
  rw [min_comm A.x2 B.x2, max_comm A.x1 B.x1, min_comm A.y2 B.y2, max_comm A.y1 B.y1]

theorem unionArea_comm (A B : Box) : unionArea A B = unionArea B A := by
  unfold unionArea
  rw [interArea_comm, add_comm (boxArea A)]

theorem iou_comm (A B : Box) : iou A B = iou B A := by
  unfold iou
  rw [interArea_comm, unionArea_comm]

/-! ### Survivor lemmas about the loop -/

/-- Every later output element survived the `nmsKeep` comparison against
every earlier output element. -/
theorem nmsLoop_pairwise (t : ℚ) (l : List Detection) :
    (nmsLoop t l).Pairwise
      (fun a b => a.class_name = b.class_name → iou a.bbox b.bbox < t) := by
  induction l using nmsLoop.induct t with
  | case1 => simp [nmsLoop_nil]
  | case2 current rest ih =>
    rw [nmsLoop_cons]
    refine List.pairwise_cons.mpr ⟨?_, ih⟩
    intro b hb hcls
    have hbf : b ∈ rest.filter (nmsKeep t current) := (nmsLoop_sublist t _).subset hb
    have h2 := (List.mem_filter.mp hbf).2
    rw [nmsKeep, if_neg (not_not.mpr hcls.symm)] at h2
    exact of_decide_eq_true h2

theorem nmsKeep_eq_true (t : ℚ) (c d : Detection)
    (h : c.class_name = d.class_name → iou c.bbox d.bbox < t) :
    nmsKeep t c d = true := by
  rw [nmsKeep]
  split
  · rfl
  · next hne => exact decide_eq_true (h (not_not.mp hne).symm)

/-- On a list whose elements pairwise survive each other, the loop is the
identity. -/
theorem nmsLoop_of_pairwise (t : ℚ) (l : List Detection)
    (h : l.Pairwise (fun a b => a.class_name = b.class_name → iou a.bbox b.bbox < t)) :
    nmsLoop t l = l := by
  induction l with
  | nil => exact nmsLoop_nil t
  | cons current rest ih =>
    rw [nmsLoop_cons]
    rcases List.pairwise_cons.mp h with ⟨h1, h2⟩
    rw [List.filter_eq_self.mpr (fun d hd => nmsKeep_eq_true t current d (h1 d hd)), ih h2]

/-! ### Sorting lemmas -/

theorem confGE_trans : ∀ a b c : Detection, confGE a b → confGE b c → confGE a c := by
  intro a b c hab hbc
  simp only [confGE, decide_eq_true_eq] at *
  exact le_trans hbc hab

theorem confGE_total : ∀ a b : Detection, confGE a b || confGE b a := by
  intro a b
  simp only [confGE, Bool.or_eq_true, decide_eq_true_eq]
  exact le_total b.confidence a.confidence

theorem sortByConfidence_sorted (l : List Detection) :
    (sortByConfidence l).Pairwise (fun a b => b.confidence ≤ a.confidence) := by
  have h := List.sorted_mergeSort confGE_trans confGE_total l
  exact h.imp (fun hab => by
    simpa only [confGE, decide_eq_true_eq] using hab)

theorem sortByConfidence_perm (l : List Detection) :
    (sortByConfidence l).Perm l :=
  List.mergeSort_perm l confGE

/-! ### A fuelled, structurally recursive twin of the loop, for evaluation -/

/-- Fuelled version of `nmsLoop`; agrees with it whenever the fuel is at
least the length of the working list. -/
def nmsLoopF : Nat → ℚ → List Detection → List Detection
  | _, _, [] => []
  | 0, _, _ :: _ => []
  | n + 1, t, current :: rest =>
      current :: nmsLoopF n t (rest.filter (nmsKeep t current))

theorem nmsLoop_eq_fuel (t : ℚ) : ∀ (n : Nat) (l : List Detection), l.length ≤ n →
    nmsLoop t l = nmsLoopF n t l := by
  intro n
  induction n with
  | zero =>
    intro l hl
    rw [List.length_eq_zero.mp (Nat.le_zero.mp hl), nmsLoop_nil]
    rfl
  | succ n ih =>
    intro l hl
    cases l with
    | nil => rw [nmsLoop_nil]; rfl
    | cons c r =>
      rw [nmsLoop_cons]
      show _ = c :: nmsLoopF n t (r.filter (nmsKeep t c))
      have hr : r.length ≤ n := Nat.succ_le_succ_iff.mp (by simpa using hl)
      rw [ih _ (le_trans (List.length_filter_le _ _) hr)]

/-- On an input already sorted by descending confidence, `nms` is the
fuelled loop; this makes concrete runs kernel-evaluable. -/
theorem nms_eval (l : List Detection) (t : ℚ)
    (hs : l.Pairwise fun a b => confGE a b) :
    nms l t = nmsLoopF l.length t l := by
  cases l with
  | nil => rfl
  | cons a as =>
    rw [nms, if_neg (by simp), sortByConfidence, List.mergeSort_of_sorted hs]
    exact nmsLoop_eq_fuel t _ _ (le_refl _)

/-! ### More survivor lemmas -/

theorem mem_of_mem_nms {l : List Detection} {t : ℚ} {d : Detection}
    (h : d ∈ nms l t) : d ∈ l := by
  rw [nms] at h
  split at h
  · simp at h
  · exact (sortByConfidence_perm l).subset ((nmsLoop_sublist t _).subset h)

theorem nms_sublist_sorted (l : List Detection) (t : ℚ) :
    List.Sublist (nms l t) (sortByConfidence l) := by
  rw [nms]
  split
  · exact List.nil_sublist _
  · exact nmsLoop_sublist t _

theorem nms_pairwise (l : List Detection) (t : ℚ) :
    (nms l t).Pairwise
      (fun a b => a.class_name = b.class_name → iou a.bbox b.bbox < t) := by
  rw [nms]
  split
  · simp
  · exact nmsLoop_pairwise t _

theorem nms_sorted_confGE (l : List Detection) (t : ℚ) :
    (nms l t).Pairwise (fun a b => confGE a b) :=
  (((List.sorted_mergeSort confGE_trans confGE_total l)).sublist
    (nms_sublist_sorted l t))

/-- If a detection's class occurs nowhere else in the list, it survives. -/
theorem nmsLoop_mem_of_unique_class (t : ℚ) :
    ∀ (l : List Detection) (d : Detection), d ∈ l →
      (∀ e ∈ l, e.class_name = d.class_name → e = d) → d ∈ nmsLoop t l := by
  intro l
  induction l using nmsLoop.induct t with
  | case1 => intro d hd _; simp at hd
  | case2 current rest ih =>
    intro d hd honly
    rw [nmsLoop_cons]
    rcases List.mem_cons.mp hd with rfl | hdr
    · exact List.mem_cons_self _ _
    · by_cases hcd : current = d
      · subst hcd; exact List.mem_cons_self _ _
      · have hcls : current.class_name ≠ d.class_name :=
          fun h => hcd (honly current (List.mem_cons_self _ _) h)
        have hdf : d ∈ rest.filter (nmsKeep t current) := by
          refine List.mem_filter.mpr ⟨hdr, ?_⟩
          rw [nmsKeep, if_pos (fun h => hcls h.symm)]
        refine List.mem_cons_of_mem _ (ih d hdf ?_)
        intro e he hecls
        exact honly e (List.mem_cons_of_mem _ ((List.filter_sublist rest).subset he)) hecls

/-- Every class present in the input is represented in the loop output. -/
theorem nmsLoop_class_represented (t : ℚ) : ∀ (l : List Detection), ∀ e ∈ l,
    ∃ d ∈ nmsLoop t l, d.class_name = e.class_name := by
  intro l
  induction l using nmsLoop.induct t with
  | case1 => intro e he; simp at he
  | case2 current rest ih =>
    intro e he
    rw [nmsLoop_cons]
    rcases List.mem_cons.mp he with rfl | her
    · exact ⟨e, List.mem_cons_self _ _, rfl⟩
    · by_cases hkeep : nmsKeep t current e = true
      · rcases ih e (List.mem_filter.mpr ⟨her, hkeep⟩) with ⟨d, hd, hcls⟩
        exact ⟨d, List.mem_cons_of_mem _ hd, hcls⟩
      · have heq : e.class_name = current.class_name := by
          by_contra hc
          rw [nmsKeep, if_pos hc] at hkeep
          exact hkeep rfl
        exact ⟨current, List.mem_cons_self _ _, heq.symm⟩

/-- At a nonpositive threshold the keep-condition degenerates to a pure
class test: every same-class comparison suppresses. -/
theorem nmsKeep_nonpos (t : ℚ) (ht : t ≤ 0) (c d : Detection) :
    nmsKeep t c d = (d.class_name != c.class_name) := by
  rw [nmsKeep]
  by_cases h : d.class_name = c.class_name
  · rw [if_neg (not_not.mpr h), bne_eq_false_iff_eq.mpr h]
    exact decide_eq_false (not_lt.mpr (le_trans ht (iou_nonneg _ _)))
  · rw [if_pos h]
    exact (bne_iff_ne.mpr h).symm

/-- At a nonpositive threshold, on a descending-confidence list, every
survivor dominates the confidence of every same-class input element. -/
theorem nmsLoop_max_confidence (t : ℚ) (ht : t ≤ 0) : ∀ (l : List Detection),
    l.Pairwise (fun a b => b.confidence ≤ a.confidence) →
    ∀ d ∈ nmsLoop t l, ∀ e ∈ l, e.class_name = d.class_name →
      e.confidence ≤ d.confidence := by
  intro l
  induction l using nmsLoop.induct t with
  | case1 => intro _ d hd; rw [nmsLoop_nil] at hd; simp at hd
  | case2 current rest ih =>
    intro hsort d hd e he hcls
    rw [nmsLoop_cons] at hd
    rcases List.pairwise_cons.mp hsort with ⟨hhead, htail⟩
    rcases List.mem_cons.mp hd with rfl | hd'
    · rcases List.mem_cons.mp he with rfl | he'
      · exact le_refl _
      · exact hhead e he'
    · have hdf : d ∈ rest.filter (nmsKeep t current) :=
        (nmsLoop_sublist t _).subset hd'
      have hdcls : d.class_name ≠ current.class_name := by
        have h2 := (List.mem_filter.mp hdf).2
        rw [nmsKeep_nonpos t ht] at h2
        exact bne_iff_ne.mp h2
      have hef : e ∈ rest.filter (nmsKeep t current) := by
        rcases List.mem_cons.mp he with rfl | he'
        · exact absurd hcls.symm hdcls
        · refine List.mem_filter.mpr ⟨he', ?_⟩
          rw [nmsKeep_nonpos t ht]
          exact bne_iff_ne.mpr (fun h => hdcls (hcls.symm.trans h))
      exact ih (htail.sublist (List.filter_sublist rest)) d hd' e hef hcls

/-! ### The stability of the sort on tie classes -/

theorem mergeSort_filter_confidence (l : List Detection) (c : ℚ) :
    (sortByConfidence l).filter (fun d => decide (d.confidence = c)) =
      l.filter (fun d => decide (d.confidence = c)) := by
  have hpair : (l.filter (fun d => decide (d.confidence = c))).Pairwise
      (fun a b => confGE a b) := by
    refine List.pairwise_of_forall_mem_list ?_
    intro a ha b hb
    have ha' := of_decide_eq_true (List.mem_filter.mp ha).2
    have hb' := of_decide_eq_true (List.mem_filter.mp hb).2
    simp only [confGE, decide_eq_true_eq]
    rw [ha', hb']
  have h1 : List.Sublist (l.filter (fun d => decide (d.confidence = c)))
      (sortByConfidence l) :=
    List.sublist_mergeSort confGE_trans confGE_total hpair (List.filter_sublist l)
  have h2 := h1.filter (fun d => decide (d.confidence = c))
  rw [List.filter_eq_self.mpr (fun a ha => (List.mem_filter.mp ha).2)] at h2
  have h3 : ((sortByConfidence l).filter (fun d => decide (d.confidence = c))).Perm
      (l.filter (fun d => decide (d.confidence = c))) :=
    (sortByConfidence_perm l).filter _
  exact (h2.eq_of_length h3.length_eq.symm).symm

/-! ### Concrete inputs for witnesses and counterexamples -/

/-- The unit box `(0,0,1,1)`. -/
def unitBox : Box := ⟨0, 0, 1, 1⟩

/-- A zero-area box. -/
def zeroBox : Box := ⟨0, 0, 0, 0⟩

def dCar : Detection := ⟨unitBox, 0, "car", 9⟩

def dPerson : Detection := ⟨unitBox, 0, "person", 8⟩

def dCat : Detection := ⟨unitBox, 1, "cat", 8⟩

def dCarLow : Detection := ⟨unitBox, 0, "car", 7⟩

theorem interArea_unitBox : interArea unitBox unitBox = 1 := by
  norm_num [interArea, unitBox]

theorem unionArea_unitBox : unionArea unitBox unitBox = 1 := by
  norm_num [unionArea, boxArea, interArea, unitBox]

theorem iou_unitBox : iou unitBox unitBox = 1 := by
  rw [iou, if_neg (by rw [unionArea_unitBox]; norm_num),
    interArea_unitBox, unionArea_unitBox]
  norm_num

/-! ### Claim theorems -/

/-- The reference algorithm of §4.2, as the spec words it: remove the
highest-confidence remaining detection, append it to the output, and
discard from the remainder every detection `d` such that
`d.class_name == current.class_name` and
`iou(current.bbox, d.bbox) ≥ iouThreshold`. -/
def suppressLoopSpec (t : ℚ) : List Detection → List Detection
  | [] => []
  | current :: remaining =>
      current :: suppressLoopSpec t (remaining.filter fun d =>
        !(d.class_name == current.class_name && decide (t ≤ iou current.bbox d.bbox)))
termination_by l => l.length
decreasing_by
  simp only [List.length_cons]
  exact Nat.lt_succ_of_le (List.length_filter_le _ _)

/-- The reference suppression of §4.2: stable sort by descending
confidence, then the greedy class-isolated loop. -/
def suppressSpec (detections : List Detection) (t : ℚ) : List Detection :=
  suppressLoopSpec t
    (detections.mergeSort fun a b => decide (b.confidence ≤ a.confidence))

theorem suppressLoopSpec_cons (t : ℚ) (current : Detection) (remaining : List Detection) :
    suppressLoopSpec t (current :: remaining) =
      current :: suppressLoopSpec t (remaining.filter fun d =>
        !(d.class_name == current.class_name && decide (t ≤ iou current.bbox d.bbox))) := by
  simp [suppressLoopSpec]

theorem keep_eq_specKeep (t : ℚ) (c d : Detection) :
    nmsKeep t c d = !(d.class_name == c.class_name && decide (t ≤ iou c.bbox d.bbox)) := by
  rw [nmsKeep]
  by_cases h : d.class_name = c.class_name
  · rw [if_neg (not_not.mpr h)]
    simp only [h, beq_self_eq_true, Bool.true_and, ← decide_not]
    exact decide_eq_decide.mpr not_le.symm
  · rw [if_pos h]
    simp [h]

theorem nmsLoop_eq_suppressLoopSpec (t : ℚ) (l : List Detection) :
    nmsLoop t l = suppressLoopSpec t l := by
  induction l using nmsLoop.induct t with
  | case1 => simp [nmsLoop_nil, suppressLoopSpec]
  | case2 current rest ih =>
    rw [nmsLoop_cons, ih, suppressLoopSpec_cons]
    have hf : rest.filter (nmsKeep t current) = rest.filter fun d =>
        !(d.class_name == current.class_name && decide (t ≤ iou current.bbox d.bbox)) :=
      List.filter_congr (fun d _ => keep_eq_specKeep t current d)
    rw [hf]

/-- C1: `nms` coincides with the reference greedy class-isolated NMS of the
spec — stable sort by descending confidence, then repeatedly keep the
highest-confidence remaining detection and discard same-class detections
whose IoU with it reaches the threshold. -/
theorem nms_eq_suppressSpec (l : List Detection) (t : ℚ) :
    nms l t = suppressSpec l t := by
  rw [nms, suppressSpec]
  cases l with
  | nil => simp [suppressLoopSpec]
  | cons a as =>
    rw [if_neg (by simp)]
    exact nmsLoop_eq_suppressLoopSpec t _

/-- C6: on the empty input list `nms` returns the empty list, for every
threshold value. -/
theorem nms_empty (t : ℚ) : nms [] t = [] := rfl

/-- C7: the suppression loop is well-founded on the length of the working
list: one iteration on a nonempty working list keeps the head and recurses
on the filtered remainder, which is strictly shorter, so each iteration
removes at least one element. -/
theorem nms_loop_terminates (t : ℚ) (current : Detection) (rest : List Detection) :
    nmsLoop t (current :: rest) =
      current :: nmsLoop t (rest.filter (nmsKeep t current)) ∧
    (rest.filter (nmsKeep t current)).length < (current :: rest).length :=
  ⟨nmsLoop_cons t current rest,
   Nat.lt_succ_of_le (List.length_filter_le _ _)⟩

/-- C2 counterexample: `nms` isolates suppression by `class_name` only, so
two detections sharing `class_id = 0` but with different class names
(`"car"`, `"person"`) on the same unit box both survive at threshold
`1/2`, although their IoU is `1 ≥ 1/2`. -/
theorem nms_same_class_id_violated :
    dCar ∈ nms [dCar, dPerson] (1/2) ∧ dPerson ∈ nms [dCar, dPerson] (1/2) ∧
    dCar ≠ dPerson ∧ dCar.class_id = dPerson.class_id ∧
    (1/2 : ℚ) ≤ iou dCar.bbox dPerson.bbox := by
  have h : nms [dCar, dPerson] (1/2) = [dCar, dPerson] :=
    (nms_eval [dCar, dPerson] (1/2) (by decide)).trans (by decide)
  rw [h]
  refine ⟨by decide, by decide, by decide, by decide, ?_⟩
  have hiou : iou dCar.bbox dPerson.bbox = 1 := iou_unitBox
  rw [hiou]
  norm_num

/-- C2 (amended): for every input and threshold, no two distinct survivors
of the same `class_name` have IoU reaching the threshold; and whenever the
input's `class_id`/`class_name` pairing is consistent (equal ids imply
equal names, as the data model requires), the same holds per `class_id`. -/
theorem nms_no_same_class_survivors (l : List Detection) (t : ℚ) :
    (∀ a ∈ nms l t, ∀ b ∈ nms l t, a ≠ b → a.class_name = b.class_name →
      iou a.bbox b.bbox < t) ∧
    ((∀ a ∈ l, ∀ b ∈ l, a.class_id = b.class_id → a.class_name = b.class_name) →
      ∀ a ∈ nms l t, ∀ b ∈ nms l t, a ≠ b → a.class_id = b.class_id →
        iou a.bbox b.bbox < t) := by
  have hsym : Symmetric (fun a b : Detection =>
      a.class_name = b.class_name → iou a.bbox b.bbox < t) := by
    intro a b hab hcls
    rw [iou_comm]
    exact hab hcls.symm
  have hname : ∀ a ∈ nms l t, ∀ b ∈ nms l t, a ≠ b →
      a.class_name = b.class_name → iou a.bbox b.bbox < t := by
    intro a ha b hb hne
    exact (nms_pairwise l t).forall hsym ha hb hne
  refine ⟨hname, ?_⟩
  intro hcons a ha b hb hne hid
  exact hname a ha b hb hne
    (hcons a (mem_of_mem_nms ha) b (mem_of_mem_nms hb) hid)

theorem nms_no_same_class_survivors_witness :
    (∀ a ∈ nms [dCar, dCat] (1/2), ∀ b ∈ nms [dCar, dCat] (1/2), a ≠ b →
      a.class_name = b.class_name → iou a.bbox b.bbox < 1/2) ∧
    (∀ a ∈ nms [dCar, dCat] (1/2), ∀ b ∈ nms [dCar, dCat] (1/2), a ≠ b →
      a.class_id = b.class_id → iou a.bbox b.bbox < 1/2) :=
  ⟨(nms_no_same_class_survivors [dCar, dCat] (1/2)).1,
   (nms_no_same_class_survivors [dCar, dCat] (1/2)).2 (by decide)⟩

/-- C3: the output of `nms` is sorted by descending confidence, and within
any tie class of equal confidence the output is a subsequence of the input
in its original order (the stable sort is first-seen-wins and the loop only
ever filters). -/
theorem nms_sorted_and_stable (l : List Detection) (t : ℚ) :
    (nms l t).Pairwise (fun a b => b.confidence ≤ a.confidence) ∧
    ∀ c : ℚ, List.Sublist
        ((nms l t).filter (fun d => decide (d.confidence = c)))
        (l.filter (fun d => decide (d.confidence = c))) := by
  refine ⟨(sortByConfidence_sorted l).sublist (nms_sublist_sorted l t), ?_⟩
  intro c
  rw [← mergeSort_filter_confidence l c]
  exact (nms_sublist_sorted l t).filter _

/-- C4: a detection is never discarded on account of a kept detection of a
different class: a detection whose class occurs nowhere else in the input
always survives, whatever its overlaps; in particular two fully-overlapping
boxes (IoU `= 1`) of different classes both survive. -/
theorem nms_cross_class_independence (t : ℚ) :
    (∀ (l : List Detection) (d : Detection), d ∈ l →
      (∀ e ∈ l, e.class_name = d.class_name → e = d) → d ∈ nms l t) ∧
    (∀ a b : Detection, a.class_name ≠ b.class_name → iou a.bbox b.bbox = 1 →
      a ∈ nms [a, b] t ∧ b ∈ nms [a, b] t) := by
  have main : ∀ (l : List Detection) (d : Detection), d ∈ l →
      (∀ e ∈ l, e.class_name = d.class_name → e = d) → d ∈ nms l t := by
    intro l d hd honly
    have hne : l ≠ [] := List.ne_nil_of_mem hd
    rw [nms, if_neg (by simpa [List.isEmpty_iff] using hne)]
    refine nmsLoop_mem_of_unique_class t _ d
      ((sortByConfidence_perm l).mem_iff.mpr hd) ?_
    intro e he
    exact honly e ((sortByConfidence_perm l).subset he)
  refine ⟨main, ?_⟩
  intro a b hne _
  constructor
  · refine main [a, b] a (by simp) ?_
    intro e he h
    rcases List.mem_cons.mp he with rfl | he'
    · rfl
    · rw [List.mem_singleton.mp he'] at h
      exact absurd h hne.symm
  · refine main [a, b] b (by simp) ?_
    intro e he h
    rcases List.mem_cons.mp he with rfl | he'
    · exact absurd h hne
    · exact List.mem_singleton.mp he'

theorem nms_cross_class_independence_witness :
    dPerson ∈ nms [dCar, dPerson] (9/20) ∧
    (dCar ∈ nms [dCar, dPerson] (9/20) ∧ dPerson ∈ nms [dCar, dPerson] (9/20)) :=
  ⟨(nms_cross_class_independence (9/20)).1 [dCar, dPerson] dPerson
      (by decide) (by decide),
   (nms_cross_class_independence (9/20)).2 dCar dPerson (by decide) iou_unitBox⟩

/-- C5: suppression is idempotent — re-running `nms` on its own output, at
the same threshold, changes nothing, neither membership nor order. -/
theorem nms_idempotent (l : List Detection) (t : ℚ) :
    nms (nms l t) t = nms l t := by
  by_cases hemp : nms l t = []
  · rw [hemp]
    rfl
  · rw [nms, if_neg (by simpa [List.isEmpty_iff] using hemp), sortByConfidence,
      List.mergeSort_of_sorted (nms_sorted_confGE l t),
      nmsLoop_of_pairwise t _ (nms_pairwise l t)]

/-- C8: `nms` accepts a nonpositive threshold; there every same-class
comparison fires (IoU is never negative, so `iou ≥ t` always holds),
hence the survivors have pairwise distinct classes, every input class is
still represented, and each survivor carries the maximal confidence of its
class. -/
theorem nms_nonpositive_threshold (l : List Detection) (t : ℚ) (ht : t ≤ 0) :
    (nms l t).Pairwise (fun a b => a.class_name ≠ b.class_name) ∧
    (∀ e ∈ l, ∃ d ∈ nms l t, d.class_name = e.class_name) ∧
    (∀ d ∈ nms l t, ∀ e ∈ l, e.class_name = d.class_name →
      e.confidence ≤ d.confidence) := by
  refine ⟨?_, ?_, ?_⟩
  · exact (nms_pairwise l t).imp
      (fun h heq => absurd (h heq) (not_lt.mpr (le_trans ht (iou_nonneg _ _))))
  · intro e he
    have hne : l ≠ [] := List.ne_nil_of_mem he
    rw [nms, if_neg (by simpa [List.isEmpty_iff] using hne)]
    exact nmsLoop_class_represented t _ e ((sortByConfidence_perm l).mem_iff.mpr he)
  · intro d hd e he hcls
    have hne : l ≠ [] := List.ne_nil_of_mem he
    rw [nms, if_neg (by simpa [List.isEmpty_iff] using hne)] at hd
    exact nmsLoop_max_confidence t ht _ (sortByConfidence_sorted l) d hd e
      ((sortByConfidence_perm l).mem_iff.mpr he) hcls

theorem nms_nonpositive_threshold_witness :
    (nms [dCar, dPerson, dCarLow] 0).Pairwise
      (fun a b => a.class_name ≠ b.class_name) ∧
    (∀ e ∈ [dCar, dPerson, dCarLow], ∃ d ∈ nms [dCar, dPerson, dCarLow] 0,
      d.class_name = e.class_name) ∧
    (∀ d ∈ nms [dCar, dPerson, dCarLow] 0, ∀ e ∈ [dCar, dPerson, dCarLow],
      e.class_name = d.class_name → e.confidence ≤ d.confidence) :=
  nms_nonpositive_threshold [dCar, dPerson, dCarLow] 0 (by decide)

/-- C9: the IoU primitive returns `0` when the union area of the two boxes
is `0`, instead of dividing by zero. -/
theorem iou_of_unionArea_eq_zero (A B : Box) (h : unionArea A B = 0) :
    iou A B = 0 := by
  rw [iou, if_pos h]

theorem iou_of_unionArea_eq_zero_witness :
    unionArea zeroBox zeroBox = 0 ∧ iou zeroBox zeroBox = 0 :=
  ⟨by norm_num [unionArea, boxArea, interArea, zeroBox],
   iou_of_unionArea_eq_zero zeroBox zeroBox
     (by norm_num [unionArea, boxArea, interArea, zeroBox])⟩

/-- C10: `nms` fabricates nothing — every output detection occurs in the
input, each input element contributes at most once (output multiplicities
are bounded by input multiplicities), and the output is never longer than
the input. -/
theorem nms_no_fabrication (l : List Detection) (t : ℚ) :
    (∀ d ∈ nms l t, d ∈ l) ∧
    (∀ d : Detection, (nms l t).count d ≤ l.count d) ∧
    (nms l t).length ≤ l.length := by
  have hs := nms_sublist_sorted l t
  have hp := sortByConfidence_perm l
  refine ⟨fun d hd => hp.subset (hs.subset hd), fun d => ?_, ?_⟩
  · exact le_trans (hs.count_le d) (le_of_eq (hp.count_eq d))
  · exact le_trans hs.length_le (le_of_eq hp.length_eq)

end TrackingNMS
